import Mathlib

/-!
Verification of the YAML rendering utilities of this repository.

Three source files are embedded:

* `yaml2html.py` — an event-stream renderer (`HTMLBuilder`, `yaml2html`)
  that turns a flat stream of PyYAML events into nested HTML, keeping a
  context stack of open containers.
* `yaml_colorize.py` — a token annotator (`tokenize`, `colorize`) that
  splices ANSI color markers around token spans of the source text,
  processing the spans back to front.
* `yaml_tree.py` — a recursive tree renderer (`visit`, `html_element`,
  `html_list`, `html_map`).

Python strings are modelled as `String` where only concatenation occurs and
as `List Char` where index-based slicing occurs (Python slices operate on
code points, exactly as `List Char` indices do).  Machine integers do not
occur; Python's unbounded `int` indices and counters are `Nat`.
-/

namespace Yaml2Html

/-- One frame of `HTMLBuilder._context`.  The Python code stores either the
string `"list"` (pushed at a `SequenceStartEvent`) or an integer parity
counter (pushed as `0` at a `MappingStartEvent`); we model that untagged
union as a tagged one. -/
inductive Frame where
  | list : Frame
  | map : Nat → Frame
deriving DecidableEq, Repr

/-- One element appended to `HTMLBuilder._html`.  The Python code appends
strings; every append site appends either one fixed colorized tag or the
scalar's raw value, so we tag the appended element by its append site and
recover the exact appended string with `itemStr`. -/
inductive Item where
  | openUl | closeUl | openDl | closeDl
  | li | closeLi | dt | closeDt | dd | closeDd
  | text : String → Item
deriving DecidableEq, Repr

/-- `HTMLBuilder._color(tag)` with the default arguments
(`color="magenta"`, `attrs=["blink"]`): termcolor first prepends the color
escape, then the attribute escape, then appends the reset escape. -/
def color (tag : String) : String :=
  "\x1b[5m\x1b[35m" ++ tag ++ "\x1b[0m"

/-- The exact string the Python code appends for each `Item`. -/
def itemStr : Item → String
  | Item.openUl => color "<ul>"
  | Item.closeUl => color "</ul>"
  | Item.openDl => color "<dl>"
  | Item.closeDl => color "</dl>"
  | Item.li => color "<li>"
  | Item.closeLi => color "</li>"
  | Item.dt => color "<dt>"
  | Item.closeDt => color "</dt>"
  | Item.dd => color "<dd>"
  | Item.closeDd => color "</dd>"
  | Item.text v => v

/-- The state of `HTMLBuilder`: the context stack (`_context`, head = top,
i.e. the Python list's last element) and the output buffer (`_html`). -/
structure HTMLBuilder where
  _context : List Frame
  _html : List Item
deriving DecidableEq, Repr

/-- The `html` property: `"".join(self._html)`. -/
def HTMLBuilder.html (b : HTMLBuilder) : String :=
  String.join (b._html.map itemStr)

/-- The PyYAML event classes distinguished by `yaml2html.py`.  `other`
stands for every event class that is in neither `OPEN_TAG_EVENTS` nor
`CLOSE_TAG_EVENTS` and is not `DocumentEndEvent` (stream/document starts,
aliases): `process` ignores those entirely. -/
inductive Event where
  | scalar : String → Event
  | seqStart | seqEnd | mapStart | mapEnd | docEnd | other
deriving DecidableEq, Repr

/-- `isinstance(event, OPEN_TAG_EVENTS)` with
`OPEN_TAG_EVENTS = (ScalarEvent, SequenceStartEvent, MappingStartEvent)`. -/
def OPEN_TAG_EVENTS : Event → Bool
  | Event.scalar _ | Event.seqStart | Event.mapStart => true
  | _ => false

/-- `isinstance(event, CLOSE_TAG_EVENTS)` with
`CLOSE_TAG_EVENTS = (ScalarEvent, SequenceEndEvent, MappingEndEvent)`. -/
def CLOSE_TAG_EVENTS : Event → Bool
  | Event.scalar _ | Event.seqEnd | Event.mapEnd => true
  | _ => false

/-- `HTMLBuilder._handle_tag(close)`: if the context stack is nonempty,
append the entering/leaving child tag chosen by the top frame (`<li>` for a
list frame, `<dt>`/`<dd>` by parity for a map frame), and on `close`
increment a map frame's parity counter. -/
def handle_tag (b : HTMLBuilder) (close : Bool) : HTMLBuilder :=
  match b._context with
  | [] => b
  | Frame.list :: _ =>
    { b with _html := b._html ++ [if close then Item.closeLi else Item.li] }
  | Frame.map p :: rest =>
    let b2 : HTMLBuilder :=
      { b with _html := b._html ++
          [if p % 2 = 0 then (if close then Item.closeDt else Item.dt)
           else (if close then Item.closeDd else Item.dd)] }
    if close then { b2 with _context := Frame.map (p + 1) :: rest } else b2

/-- `HTMLBuilder.process(event)`: open handling (entering child tag, then
the event's own opening output and push), then close handling (leaving
child tag, then the event's own closing output and pop).  A scalar event is
in both classes, so both blocks run for it. -/
def process (b : HTMLBuilder) (event : Event) : HTMLBuilder :=
  let b1 : HTMLBuilder :=
    if OPEN_TAG_EVENTS event then
      let b2 := handle_tag b false
      match event with
      | Event.scalar v => { b2 with _html := b2._html ++ [Item.text v] }
      | Event.seqStart =>
        { _context := Frame.list :: b2._context
          _html := b2._html ++ [Item.openUl] }
      | Event.mapStart =>
        { _context := Frame.map 0 :: b2._context
          _html := b2._html ++ [Item.openDl] }
      | _ => b2
    else b
  if CLOSE_TAG_EVENTS event then
    let b3 := handle_tag b1 true
    match event with
    | Event.seqEnd =>
      { _context := b3._context.tail, _html := b3._html ++ [Item.closeUl] }
    | Event.mapEnd =>
      { _context := b3._context.tail, _html := b3._html ++ [Item.closeDl] }
    | _ => b3
  else b1

/-- Processing a whole event list in order. -/
def run (b : HTMLBuilder) (evs : List Event) : HTMLBuilder :=
  evs.foldl process b

/-- The generator `yaml2html`: process each event; at a `DocumentEndEvent`
yield the accumulated `html` and restart with a fresh `HTMLBuilder`. -/
def yaml2html (b : HTMLBuilder) : List Event → List String
  | [] => []
  | e :: rest =>
    let b2 := process b e
    if e = Event.docEnd then b2.html :: yaml2html (HTMLBuilder.mk [] []) rest
    else yaml2html b2 rest

/-- A well-nested YAML document body.  A mapping's children are its keys
and values interleaved in event order (key, value, key, value, …), exactly
as the event stream presents them. -/
inductive Node where
  | scalar : String → Node
  | seq : List Node → Node
  | map : List Node → Node
deriving Repr

mutual

/-- The well-nested event sequence of one node. -/
def events : Node → List Event
  | Node.scalar v => [Event.scalar v]
  | Node.seq cs => Event.seqStart :: (eventsList cs ++ [Event.seqEnd])
  | Node.map cs => Event.mapStart :: (eventsList cs ++ [Event.mapEnd])

/-- The concatenated event sequences of a list of sibling nodes. -/
def eventsList : List Node → List Event
  | [] => []
  | n :: ns => events n ++ eventsList ns

end

/-- The child tag `_handle_tag` appends for a given context stack
(none when the stack is empty). -/
def childTag (close : Bool) : List Frame → List Item
  | [] => []
  | Frame.list :: _ => [if close then Item.closeLi else Item.li]
  | Frame.map p :: _ =>
    [if p % 2 = 0 then (if close then Item.closeDt else Item.dt)
     else (if close then Item.closeDd else Item.dd)]

/-- Increment the parity of a top map frame (the context effect of a
closing `_handle_tag`). -/
def advTop : List Frame → List Frame
  | Frame.map p :: rest => Frame.map (p + 1) :: rest
  | c => c

/-- The context stack after processing one node's events: a scalar
advances a top map frame's parity; containers restore the stack exactly. -/
def ctxAfter : Node → List Frame → List Frame
  | Node.scalar _, c => advTop c
  | Node.seq _, c => c
  | Node.map _, c => c

/-- The context stack after processing a list of sibling nodes. -/
def ctxAfterL : List Node → List Frame → List Frame
  | [], c => c
  | n :: ns, c => ctxAfterL ns (ctxAfter n c)

mutual

/-- Closed form of the output items `process` emits for one node's events,
starting from context stack `c`. -/
def emitN : Node → List Frame → List Item
  | Node.scalar v, c => childTag false c ++ [Item.text v] ++ childTag true c
  | Node.seq cs, c =>
    childTag false c ++ [Item.openUl] ++ emitL cs (Frame.list :: c) ++
      [Item.closeLi, Item.closeUl]
  | Node.map cs, c =>
    childTag false c ++ [Item.openDl] ++ emitL cs (Frame.map 0 :: c) ++
      childTag true (ctxAfterL cs (Frame.map 0 :: c)) ++ [Item.closeDl]

/-- Closed form of the output items for a list of sibling nodes. -/
def emitL : List Node → List Frame → List Item
  | [], _ => []
  | n :: ns, c => emitN n c ++ emitL ns (ctxAfter n c)

end

theorem handle_tag_eq (c : List Frame) (h : List Item) (close : Bool) :
    handle_tag ⟨c, h⟩ close =
      ⟨if close then advTop c else c, h ++ childTag close c⟩ := by
  match c with
  | [] => cases close <;> simp [handle_tag, childTag, advTop]
  | Frame.list :: r => cases close <;> simp [handle_tag, childTag, advTop]
  | Frame.map p :: r => cases close <;> simp [handle_tag, childTag, advTop]

theorem process_scalar (c : List Frame) (h : List Item) (v : String) :
    process ⟨c, h⟩ (Event.scalar v) =
      ⟨advTop c, h ++ (childTag false c ++ [Item.text v] ++ childTag true c)⟩ := by
  simp [process, OPEN_TAG_EVENTS, CLOSE_TAG_EVENTS, handle_tag_eq]

theorem process_seqStart (c : List Frame) (h : List Item) :
    process ⟨c, h⟩ Event.seqStart =
      ⟨Frame.list :: c, h ++ (childTag false c ++ [Item.openUl])⟩ := by
  simp [process, OPEN_TAG_EVENTS, CLOSE_TAG_EVENTS, handle_tag_eq]

theorem process_mapStart (c : List Frame) (h : List Item) :
    process ⟨c, h⟩ Event.mapStart =
      ⟨Frame.map 0 :: c, h ++ (childTag false c ++ [Item.openDl])⟩ := by
  simp [process, OPEN_TAG_EVENTS, CLOSE_TAG_EVENTS, handle_tag_eq]

theorem process_seqEnd (c : List Frame) (h : List Item) :
    process ⟨c, h⟩ Event.seqEnd =
      ⟨(advTop c).tail, h ++ (childTag true c ++ [Item.closeUl])⟩ := by
  simp [process, OPEN_TAG_EVENTS, CLOSE_TAG_EVENTS, handle_tag_eq]

theorem process_mapEnd (c : List Frame) (h : List Item) :
    process ⟨c, h⟩ Event.mapEnd =
      ⟨(advTop c).tail, h ++ (childTag true c ++ [Item.closeDl])⟩ := by
  simp [process, OPEN_TAG_EVENTS, CLOSE_TAG_EVENTS, handle_tag_eq]

theorem process_docEnd (b : HTMLBuilder) :
    process b Event.docEnd = b := by
  simp [process, OPEN_TAG_EVENTS, CLOSE_TAG_EVENTS]

theorem process_other (b : HTMLBuilder) :
    process b Event.other = b := by
  simp [process, OPEN_TAG_EVENTS, CLOSE_TAG_EVENTS]

theorem run_nil (b : HTMLBuilder) : run b [] = b := rfl

theorem run_cons (b : HTMLBuilder) (e : Event) (evs : List Event) :
    run b (e :: evs) = run (process b e) evs := rfl

theorem run_append (b : HTMLBuilder) (l1 l2 : List Event) :
    run b (l1 ++ l2) = run (run b l1) l2 :=
  List.foldl_append ..

theorem ctxAfter_listTop (n : Node) (c : List Frame) :
    ctxAfter n (Frame.list :: c) = Frame.list :: c := by
  cases n <;> simp [ctxAfter, advTop]

theorem ctxAfterL_listTop (ns : List Node) (c : List Frame) :
    ctxAfterL ns (Frame.list :: c) = Frame.list :: c := by
  induction ns with
  | nil => rfl
  | cons n ns ih => simp [ctxAfterL, ctxAfter_listTop, ih]

theorem ctxAfterL_mapTop (ns : List Node) (p : Nat) (c : List Frame) :
    ∃ q, ctxAfterL ns (Frame.map p :: c) = Frame.map q :: c := by
  induction ns generalizing p with
  | nil => exact ⟨p, rfl⟩
  | cons n ns ih =>
    cases n with
    | scalar v => simpa [ctxAfterL, ctxAfter, advTop] using ih (p + 1)
    | seq cs => simpa [ctxAfterL, ctxAfter] using ih p
    | map cs => simpa [ctxAfterL, ctxAfter] using ih p

mutual

theorem run_events (n : Node) (c : List Frame) (h : List Item) :
    run ⟨c, h⟩ (events n) = ⟨ctxAfter n c, h ++ emitN n c⟩ := by
  match n with
  | Node.scalar v =>
    simp [events, run, process_scalar, ctxAfter, emitN]
  | Node.seq cs =>
    rw [events, run_cons, process_seqStart, show
        eventsList cs ++ [Event.seqEnd] =
          eventsList cs ++ [Event.seqEnd] from rfl,
      run_append, run_eventsList cs, ctxAfterL_listTop]
    simp only [run, List.foldl_cons, List.foldl_nil, process_seqEnd]
    simp [ctxAfter, advTop, childTag, emitN, List.append_assoc]
  | Node.map cs =>
    rw [events, run_cons, process_mapStart, run_append, run_eventsList cs]
    obtain ⟨q, hq⟩ := ctxAfterL_mapTop cs 0 c
    rw [hq]
    simp only [run, List.foldl_cons, List.foldl_nil, process_mapEnd]
    simp [ctxAfter, advTop, emitN, hq, List.append_assoc]

theorem run_eventsList (ns : List Node) (c : List Frame) (h : List Item) :
    run ⟨c, h⟩ (eventsList ns) = ⟨ctxAfterL ns c, h ++ emitL ns c⟩ := by
  match ns with
  | [] => simp [eventsList, run, ctxAfterL, emitL]
  | n :: ns =>
    rw [eventsList, run_append, run_events n, run_eventsList ns]
    simp [ctxAfterL, emitL, List.append_assoc]

end

/-- `true` exactly for the opening container markers `<ul>` / `<dl>`. -/
def isOpenMarker : Item → Bool
  | Item.openUl | Item.openDl => true
  | _ => false

/-- `true` exactly for the closing container markers `</ul>` / `</dl>`. -/
def isCloseMarker : Item → Bool
  | Item.closeUl | Item.closeDl => true
  | _ => false

/-- The kind of an open container, for the matching check. -/
inductive Delim where
  | ul | dl
deriving DecidableEq, Repr

/-- One step of the balanced-parenthesis check over container markers:
an opening marker pushes its kind, a closing marker must pop the same
kind (otherwise the scan fails), every other item is ignored. -/
def balStep (st : Option (List Delim)) (i : Item) : Option (List Delim) :=
  match st with
  | none => none
  | some s =>
    match i with
    | Item.openUl => some (Delim.ul :: s)
    | Item.openDl => some (Delim.dl :: s)
    | Item.closeUl =>
      match s with
      | Delim.ul :: r => some r
      | _ => none
    | Item.closeDl =>
      match s with
      | Delim.dl :: r => some r
      | _ => none
    | _ => some s

/-- The balanced-parenthesis scan over a whole item list. -/
def balRun (l : List Item) (st : Option (List Delim)) : Option (List Delim) :=
  l.foldl balStep st

theorem balRun_append (l1 l2 : List Item) (st : Option (List Delim)) :
    balRun (l1 ++ l2) st = balRun l2 (balRun l1 st) :=
  List.foldl_append ..

theorem balRun_childTag (close : Bool) (c : List Frame)
    (s : List Delim) : balRun (childTag close c) (some s) = some s := by
  match c with
  | [] => rfl
  | Frame.list :: r => cases close <;> simp [childTag, balRun, balStep]
  | Frame.map p :: r =>
    rcases Nat.even_or_odd p with hp | hp
    · rw [Nat.even_iff] at hp
      cases close <;> simp [childTag, balRun, balStep, hp]
    · rw [Nat.odd_iff] at hp
      cases close <;> simp [childTag, balRun, balStep, hp]

mutual

theorem balRun_emitN (n : Node) (c : List Frame) (s : List Delim) :
    balRun (emitN n c) (some s) = some s := by
  match n with
  | Node.scalar v =>
    rw [emitN, balRun_append, balRun_append, balRun_childTag]
    have h1 : balRun [Item.text v] (some s) = some s := rfl
    rw [h1, balRun_childTag]
  | Node.seq cs =>
    rw [emitN, balRun_append, balRun_append, balRun_append, balRun_childTag]
    have h1 : balRun [Item.openUl] (some s) = some (Delim.ul :: s) := rfl
    rw [h1, balRun_emitL cs]
    rfl
  | Node.map cs =>
    rw [emitN, balRun_append, balRun_append, balRun_append, balRun_append,
      balRun_childTag]
    have h1 : balRun [Item.openDl] (some s) = some (Delim.dl :: s) := rfl
    rw [h1, balRun_emitL cs, balRun_childTag]
    rfl

theorem balRun_emitL (ns : List Node) (c : List Frame) (s : List Delim) :
    balRun (emitL ns c) (some s) = some s := by
  match ns with
  | [] => rfl
  | n :: ns =>
    rw [emitL, balRun_append, balRun_emitN n, balRun_emitL ns]

end

theorem balRun_none (l : List Item) : balRun l none = none := by
  induction l with
  | nil => rfl
  | cons i l ih => simpa [balRun, balStep] using ih

theorem countP_of_balRun (l : List Item) :
    ∀ s s' : List Delim, balRun l (some s) = some s' →
      (l.countP isCloseMarker) + s'.length =
        (l.countP isOpenMarker) + s.length := by
  induction l with
  | nil =>
    intro s s' h
    simp [balRun] at h
    simp [h]
  | cons i l ih =>
    intro s s' h
    rw [balRun, List.foldl_cons] at h
    match i with
    | Item.openUl =>
      have := ih (Delim.ul :: s) s' h
      simp [List.countP_cons, isOpenMarker, isCloseMarker] at this ⊢
      omega
    | Item.openDl =>
      have := ih (Delim.dl :: s) s' h
      simp [List.countP_cons, isOpenMarker, isCloseMarker] at this ⊢
      omega
    | Item.closeUl =>
      match s with
      | Delim.ul :: r =>
        have := ih r s' h
        simp [List.countP_cons, isOpenMarker, isCloseMarker] at this ⊢
        omega
      | [] =>
        have h2 : balRun l none = some s' := h
        rw [balRun_none] at h2
        cases h2
      | Delim.dl :: r =>
        have h2 : balRun l none = some s' := h
        rw [balRun_none] at h2
        cases h2
    | Item.closeDl =>
      match s with
      | Delim.dl :: r =>
        have := ih r s' h
        simp [List.countP_cons, isOpenMarker, isCloseMarker] at this ⊢
        omega
      | [] =>
        have h2 : balRun l none = some s' := h
        rw [balRun_none] at h2
        cases h2
      | Delim.ul :: r =>
        have h2 : balRun l none = some s' := h
        rw [balRun_none] at h2
        cases h2
    | Item.li =>
      have := ih s s' h
      simp [List.countP_cons, isOpenMarker, isCloseMarker] at this ⊢
      omega
    | Item.closeLi =>
      have := ih s s' h
      simp [List.countP_cons, isOpenMarker, isCloseMarker] at this ⊢
      omega
    | Item.dt =>
      have := ih s s' h
      simp [List.countP_cons, isOpenMarker, isCloseMarker] at this ⊢
      omega
    | Item.closeDt =>
      have := ih s s' h
      simp [List.countP_cons, isOpenMarker, isCloseMarker] at this ⊢
      omega
    | Item.dd =>
      have := ih s s' h
      simp [List.countP_cons, isOpenMarker, isCloseMarker] at this ⊢
      omega
    | Item.closeDd =>
      have := ih s s' h
      simp [List.countP_cons, isOpenMarker, isCloseMarker] at this ⊢
      omega
    | Item.text v =>
      have := ih s s' h
      simp [List.countP_cons, isOpenMarker, isCloseMarker] at this ⊢
      omega

/-- C1: for every well-nested event sequence (the event stream of a node),
the output of the renderer contains as many opening container markers
(`<ul>`/`<dl>`) as closing ones (`</ul>`/`</dl>`), and the container
markers are properly matched: the stack scan that pushes each opening
marker and pops a matching closing marker succeeds and ends with an empty
stack. -/
theorem c1_container_markers_balanced (n : Node) :
    ((run ⟨[], []⟩ (events n))._html).countP isOpenMarker =
        ((run ⟨[], []⟩ (events n))._html).countP isCloseMarker ∧
      balRun ((run ⟨[], []⟩ (events n))._html) (some []) = some [] := by
  have hrun := run_events n [] []
  rw [hrun]
  simp only [List.nil_append]
  have hbal := balRun_emitN n [] []
  refine ⟨?_, hbal⟩
  have := countP_of_balRun (emitN n []) [] [] hbal
  simpa using this.symm

/-- C5: `_handle_tag` emits no wrapping child tag when the context stack is
empty; otherwise it emits `<li>`/`</li>` when the top frame is a list
context, `<dt>`/`</dt>` when the top frame is a map context with even
parity and `<dd>`/`</dd>` when odd, with the parity read before any
advance; the parity counter is incremented exactly on a close, never on an
open. -/
theorem c5_handle_tag_policy (b : HTMLBuilder) (close : Bool) :
    (b._context = [] → handle_tag b close = b) ∧
      (∀ r, b._context = Frame.list :: r →
        handle_tag b close =
          ⟨Frame.list :: r,
            b._html ++ [if close then Item.closeLi else Item.li]⟩) ∧
      (∀ p r, b._context = Frame.map p :: r →
        handle_tag b close =
          ⟨Frame.map (if close then p + 1 else p) :: r,
            b._html ++
              [if p % 2 = 0 then (if close then Item.closeDt else Item.dt)
               else (if close then Item.closeDd else Item.dd)]⟩) := by
  obtain ⟨c, h⟩ := b
  refine ⟨?_, ?_, ?_⟩
  · intro hc
    subst hc
    rw [handle_tag_eq]
    cases close <;> simp [advTop, childTag]
  · intro r hc
    subst hc
    rw [handle_tag_eq]
    cases close <;> simp [advTop, childTag]
  · intro p r hc
    subst hc
    rw [handle_tag_eq]
    cases close <;> simp [advTop, childTag]

/-- Witness for C5 at a concrete builder state: a closing `_handle_tag` on
a top map frame with parity 2 emits `</dt>` and increments the parity. -/
theorem c5_handle_tag_policy_witness :
    handle_tag ⟨[Frame.map 2], []⟩ true =
      ⟨[Frame.map 3], [Item.closeDt]⟩ := by
  have h := (c5_handle_tag_policy ⟨[Frame.map 2], []⟩ true).2.2 2 [] rfl
  simpa using h

/-- C10: a scalar event is in both `OPEN_TAG_EVENTS` and
`CLOSE_TAG_EVENTS`, so one `process` call performs the open handling and
then the close handling; with a map context on top, the entering and
leaving tags around the scalar's text are both evaluated at the same
parity and always form a matched `<dt>…</dt>` or `<dd>…</dd>` pair, the
parity advancing only after the leaving tag. -/
theorem c10_scalar_open_close_pair (v : String) (p : Nat) (r : List Frame)
    (h : List Item) :
    OPEN_TAG_EVENTS (Event.scalar v) = true ∧
      CLOSE_TAG_EVENTS (Event.scalar v) = true ∧
      process ⟨Frame.map p :: r, h⟩ (Event.scalar v) =
        ⟨Frame.map (p + 1) :: r,
          h ++ (if p % 2 = 0 then [Item.dt, Item.text v, Item.closeDt]
                else [Item.dd, Item.text v, Item.closeDd])⟩ := by
  refine ⟨rfl, rfl, ?_⟩
  rw [process_scalar]
  rcases Nat.even_or_odd p with hp | hp
  · rw [Nat.even_iff] at hp
    simp [advTop, childTag, hp]
  · rw [Nat.odd_iff] at hp
    simp [advTop, childTag, hp]

/-- C2 counterexample: the full output of the renderer on the mapping
`{k1: [x], k2: v2}` (children `k1`, `[x]`, `k2`, `v2` in event order).
The third child `k2` is wrapped in `<dd>…</dd>` — a value-role tag —
although the claim requires every odd-positioned (1st, 3rd, …) child to
get a key-role tag; the sequence child did not advance the parity
counter, because the closing `_handle_tag` of a container is evaluated
against the container's own frame, not its parent's. -/
theorem c2_counterexample :
    (run ⟨[], []⟩ (events (Node.map
        [Node.scalar "k1", Node.seq [Node.scalar "x"],
         Node.scalar "k2", Node.scalar "v2"])))._html =
      [Item.openDl,
       Item.dt, Item.text "k1", Item.closeDt,
       Item.dd, Item.openUl,
       Item.li, Item.text "x", Item.closeLi,
       Item.closeLi, Item.closeUl,
       Item.dd, Item.text "k2", Item.closeDd,
       Item.dt, Item.text "v2", Item.closeDt,
       Item.closeDd, Item.closeDl] := by
  rfl

/-- The alternating key-role/value-role wrapping dictated by the parity
counter, for a run of scalar children starting at parity `p`: the child at
parity `p` is wrapped in `<dt>…</dt>` when `p` is even and `<dd>…</dd>`
when odd, and each scalar child advances the parity by one. -/
def altTrace : List String → Nat → List Item
  | [], _ => []
  | v :: vs, p =>
    (if p % 2 = 0 then Item.dt else Item.dd) :: Item.text v ::
      (if p % 2 = 0 then Item.closeDt else Item.closeDd) :: altTrace vs (p + 1)

theorem emitL_scalars (vs : List String) (p : Nat) (c : List Frame) :
    emitL (vs.map Node.scalar) (Frame.map p :: c) = altTrace vs p := by
  induction vs generalizing p with
  | nil => rfl
  | cons v vs ih =>
    rw [List.map_cons, emitL, emitN]
    rcases Nat.even_or_odd p with hp | hp
    · rw [Nat.even_iff] at hp
      simp [childTag, ctxAfter, advTop, altTrace, hp, ih]
    · rw [Nat.odd_iff] at hp
      simp [childTag, ctxAfter, advTop, altTrace, hp, ih]

theorem ctxAfterL_scalars (vs : List String) (p : Nat) (c : List Frame) :
    ctxAfterL (vs.map Node.scalar) (Frame.map p :: c) =
      Frame.map (p + vs.length) :: c := by
  induction vs generalizing p with
  | nil => rfl
  | cons v vs ih =>
    rw [List.map_cons, ctxAfterL, ctxAfter, advTop, ih]
    simp [Nat.add_comm, Nat.add_assoc, Nat.add_left_comm]

/-- C2 as amended: within one mapping's children the 1st, 3rd, 5th…
children are wrapped in key-role tags (`<dt>`) and the 2nd, 4th, 6th… in
value-role tags (`<dd>`) **provided every child is a scalar** — each
scalar child advances the parity counter by one, so the roles alternate
by position (`altTrace vs 0`).  A sequence or mapping child does not
advance the parity counter, so the alternation fails in general (see the
counterexample). -/
theorem c2_amended_alternation_scalars (vs : List String) :
    (run ⟨[], []⟩ (events (Node.map (vs.map Node.scalar))))._html =
      Item.openDl :: (altTrace vs 0 ++
        [if vs.length % 2 = 0 then Item.closeDt else Item.closeDd,
         Item.closeDl]) := by
  rw [run_events]
  simp only [List.nil_append, emitN, childTag, ctxAfterL_scalars,
    emitL_scalars, Nat.zero_add]
  rcases Nat.even_or_odd vs.length with hp | hp
  · rw [Nat.even_iff] at hp
    simp [hp]
  · rw [Nat.odd_iff] at hp
    simp [hp]

/-- The event stream of a sequence of back-to-back documents: each
document contributes its start event (ignored by `process`), its body's
events, and its `DocumentEndEvent`. -/
def docStream : List Node → List Event
  | [] => []
  | n :: rest =>
    Event.other :: ((events n ++ [Event.docEnd]) ++ docStream rest)

mutual

theorem docEnd_notin_events (n : Node) : Event.docEnd ∉ events n := by
  match n with
  | Node.scalar v =>
    intro hmem
    simp [events] at hmem
  | Node.seq cs =>
    intro hmem
    rw [events] at hmem
    rcases List.mem_cons.mp hmem with h1 | h2
    · cases h1
    · rcases List.mem_append.mp h2 with h3 | h4
      · exact docEnd_notin_eventsList cs h3
      · simp at h4
  | Node.map cs =>
    intro hmem
    rw [events] at hmem
    rcases List.mem_cons.mp hmem with h1 | h2
    · cases h1
    · rcases List.mem_append.mp h2 with h3 | h4
      · exact docEnd_notin_eventsList cs h3
      · simp at h4

theorem docEnd_notin_eventsList (ns : List Node) :
    Event.docEnd ∉ eventsList ns := by
  match ns with
  | [] =>
    intro hmem
    simp [eventsList] at hmem
  | n :: ns =>
    intro hmem
    rw [eventsList] at hmem
    rcases List.mem_append.mp hmem with h1 | h2
    · exact docEnd_notin_events n h1
    · exact docEnd_notin_eventsList ns h2

end

theorem yaml2html_through (evs : List Event) :
    ∀ (b : HTMLBuilder) (rest : List Event), Event.docEnd ∉ evs →
      yaml2html b (evs ++ rest) = yaml2html (run b evs) rest := by
  induction evs with
  | nil => intro b rest _; rfl
  | cons e evs ih =>
    intro b rest hne
    rw [List.cons_append, yaml2html]
    have he : ¬(e = Event.docEnd) := by
      intro hcontra
      exact hne (hcontra ▸ List.mem_cons_self e evs)
    rw [if_neg he, run_cons]
    exact ih (process b e) rest (fun hm => hne (List.mem_cons_of_mem e hm))

/-- C6: the renderer's stack is empty before the first event (a fresh
builder) and empty again after the last event of each logical document,
and at each `DocumentEndEvent` the accumulated markup is yielded while the
stack and output buffer restart from a fresh, empty builder — so a stream
of back-to-back documents yields exactly the per-document renderings from
a fresh state. -/
theorem c6_document_boundaries (docs : List Node) :
    (HTMLBuilder.mk [] [])._context = [] ∧
      (∀ n : Node, (run ⟨[], []⟩ (events n))._context = []) ∧
      yaml2html ⟨[], []⟩ (docStream docs) =
        docs.map (fun n => (run ⟨[], []⟩ (events n)).html) := by
  refine ⟨rfl, ?_, ?_⟩
  · intro n
    rw [run_events]
    cases n <;> simp [ctxAfter, advTop]
  · induction docs with
    | nil => rfl
    | cons n rest ih =>
      rw [docStream, List.map_cons, yaml2html]
      have hne : ¬(Event.other = Event.docEnd) := by decide
      rw [if_neg hne, process_other, List.append_assoc,
        yaml2html_through (events n) _ _ (docEnd_notin_events n),
        List.singleton_append, yaml2html, process_docEnd, if_pos rfl, ih]

end Yaml2Html

namespace YamlColorize

/-- The classification a span from `tokenize` carries: the type of the
PyYAML token object yielded with it (`KeyToken`, `ValueToken`,
`TagToken`), which is all `colorize` reads from it. -/
inductive TKind where
  | key | value | tag
deriving DecidableEq, Repr

/-- One yielded triple of `tokenize`: start index, end index (a half-open
code-point span into the text; `end` is a Lean keyword, so the field is
`stop`), and the classifying token kind. -/
structure Tok where
  start : Nat
  stop : Nat
  kind : TKind
deriving DecidableEq, Repr

/-- The raw tokens of `yaml.scan` as far as `tokenize` distinguishes them:
key, value, tag and scalar tokens with their mark indices, and `otherT`
for every other token class (which `tokenize` ignores). -/
inductive RawTok where
  | keyT : Nat → Nat → RawTok
  | valueT : Nat → Nat → RawTok
  | tagT : Nat → Nat → RawTok
  | scalarT : Nat → Nat → RawTok
  | otherT : RawTok
deriving DecidableEq, Repr

/-- The scan loop of `tokenize`, carrying the `last_token` kind: tag
tokens are yielded as themselves, scalar tokens are yielded with the
carried kind, key/value tokens update the carried kind without being
yielded. -/
def tokenizeAux (last : TKind) : List RawTok → List Tok
  | [] => []
  | RawTok.tagT s e :: rest => ⟨s, e, TKind.tag⟩ :: tokenizeAux last rest
  | RawTok.scalarT s e :: rest => ⟨s, e, last⟩ :: tokenizeAux last rest
  | RawTok.keyT _ _ :: rest => tokenizeAux TKind.key rest
  | RawTok.valueT _ _ :: rest => tokenizeAux TKind.value rest
  | RawTok.otherT :: rest => tokenizeAux last rest

/-- `tokenize`: the carried token starts as `yaml.ValueToken(None, None)`. -/
def tokenize (raw : List RawTok) : List Tok :=
  tokenizeAux TKind.value raw

/-- One ANSI escape sequence `"\x1b[" + code + "m"`. -/
def esc (code : List Char) : List Char :=
  '\x1b' :: '[' :: (code ++ ['m'])

/-- The termcolor code of the color `colorize` chooses per token kind:
`colors = {KeyToken: "blue" (34), ValueToken: "cyan" (36),
TagToken: "red" (31)}`. -/
def colorCode : TKind → List Char
  | TKind.key => ['3', '4']
  | TKind.value => ['3', '6']
  | TKind.tag => ['3', '1']

/-- `attrs = ["bold"] if isinstance(token, yaml.KeyToken) else None`. -/
def hasBold : TKind → Bool
  | TKind.key => true
  | _ => false

/-- `termcolor.colored(s, color, attrs=attrs)`: the color escape is
prepended first, then each attribute escape (bold = 1), and the reset
escape is appended. -/
def colored (s : List Char) (k : TKind) : List Char :=
  (if hasBold k then esc ['1'] else []) ++
    (esc (colorCode k) ++ (s ++ esc ['0']))

/-- One iteration of the `colorize` loop:
`text = text[:start] + colored(text[start:end], ...) + text[end:]`. -/
def splice (text : List Char) (t : Tok) : List Char :=
  text.take t.start ++
    (colored ((text.take t.stop).drop t.start) t.kind ++ text.drop t.stop)

/-- The splicing loop of `colorize` over an already-produced token list:
`for start, end, token in reversed(list(...))`. -/
def annotate (text : List Char) (toks : List Tok) : List Char :=
  toks.reverse.foldl splice text

/-- `colorize(text)`: annotate the text with the tokens `tokenize`
produces for it. -/
def colorize (text : List Char) (raw : List RawTok) : List Char :=
  annotate text (tokenize raw)

/-- Well-formed span list, as the scanner guarantees: each span is
ordered and in bounds, and wholly precedes every later span. -/
def spansOk (n : Nat) : List Tok → Bool
  | [] => true
  | t :: rest =>
    decide (t.start ≤ t.stop) && decide (t.stop ≤ n) &&
      rest.all (fun u => decide (t.stop ≤ u.start)) && spansOk n rest

/-- Shift a span left by `k` positions. -/
def shift (t : Tok) (k : Nat) : Tok :=
  ⟨t.start - k, t.stop - k, t.kind⟩

/-- Modelled from the spec: the canonical annotation of a text by a list
of ascending, non-overlapping spans — every span's slice is wrapped in its
markers in place and all text between spans is untouched.  This is the
reference result the splicing loop is compared with. -/
def weave (text : List Char) (l : List Tok) : List Char :=
  match l with
  | [] => text
  | t :: rest =>
    text.take t.start ++
      (colored ((text.take t.stop).drop t.start) t.kind ++
        weave (text.drop t.stop) (rest.map (fun u => shift u t.stop)))
termination_by l.length
decreasing_by simp [List.length_map, Nat.lt_succ_self]

mutual

/-- Remove every ANSI escape sequence `ESC [ … m` — i.e. every inserted
annotation marker — from a character list. -/
def strip : List Char → List Char
  | [] => []
  | c :: rest => if c = '\x1b' then stripSeq rest else c :: strip rest

/-- Inside an escape sequence: drop characters up to and including the
terminating `m`. -/
def stripSeq : List Char → List Char
  | [] => []
  | c :: rest => if c = 'm' then strip rest else stripSeq rest

end

/-- The text contains no escape character of its own. -/
def noEsc (l : List Char) : Bool :=
  l.all (fun c => decide (c ≠ '\x1b'))

theorem annotate_nil (text : List Char) : annotate text [] = text := rfl

theorem annotate_cons (text : List Char) (t : Tok) (rest : List Tok) :
    annotate text (t :: rest) = splice (annotate text rest) t := by
  rw [annotate, List.reverse_cons, List.foldl_append]
  rfl

theorem spansOk_cons_iff (n : Nat) (t : Tok) (rest : List Tok) :
    spansOk n (t :: rest) = true ↔
      t.start ≤ t.stop ∧ t.stop ≤ n ∧ (∀ u ∈ rest, t.stop ≤ u.start) ∧
        spansOk n rest = true := by
  simp [spansOk, List.all_eq_true, and_assoc]

theorem spansOk_mem (n : Nat) (l : List Tok) (h : spansOk n l = true) :
    ∀ u ∈ l, u.start ≤ u.stop ∧ u.stop ≤ n := by
  induction l with
  | nil => intro u hu; cases hu
  | cons t rest ih =>
    rw [spansOk_cons_iff] at h
    intro u hu
    rcases List.mem_cons.mp hu with h1 | h2
    · subst h1; exact ⟨h.1, h.2.1⟩
    · exact ih h.2.2.2 u h2

theorem spansOk_shift (rest : List Tok) (n k : Nat)
    (hmem : ∀ u ∈ rest, k ≤ u.start) (h : spansOk n rest = true) :
    spansOk (n - k) (rest.map (fun u => shift u k)) = true := by
  induction rest with
  | nil => rfl
  | cons u us ih =>
    rw [spansOk_cons_iff] at h
    obtain ⟨h1, h2, h3, h4⟩ := h
    have hk := hmem u (List.mem_cons_self u us)
    rw [List.map_cons, spansOk_cons_iff]
    refine ⟨?_, ?_, ?_,
      ih (fun w hw => hmem w (List.mem_cons_of_mem u hw)) h4⟩
    · show u.start - k ≤ u.stop - k
      omega
    · show u.stop - k ≤ n - k
      omega
    · intro w hw
      rcases List.mem_map.mp hw with ⟨w0, hw0, rfl⟩
      have ha := h3 w0 hw0
      have hb := hmem w0 (List.mem_cons_of_mem u hw0)
      show u.stop - k ≤ w0.start - k
      omega

theorem splice_shift (P Y : List Char) (u : Tok) (k : Nat)
    (hP : P.length = k) (hk : k ≤ u.start) (hss : u.start ≤ u.stop) :
    splice (P ++ Y) u = P ++ splice Y (shift u k) := by
  have hks : k ≤ u.stop := le_trans hk hss
  have h1 : (P ++ Y).take u.start = P ++ Y.take (u.start - k) := by
    rw [List.take_append_eq_append_take, hP,
      List.take_of_length_le (le_of_eq_of_le hP hk)]
  have h2 : (P ++ Y).take u.stop = P ++ Y.take (u.stop - k) := by
    rw [List.take_append_eq_append_take, hP,
      List.take_of_length_le (le_of_eq_of_le hP hks)]
  have h3 : (P ++ Y.take (u.stop - k)).drop u.start =
      (Y.take (u.stop - k)).drop (u.start - k) := by
    rw [List.drop_append_eq_append_drop, hP,
      List.drop_eq_nil_of_le (le_of_eq_of_le hP hk), List.nil_append]
  have h4 : (P ++ Y).drop u.stop = Y.drop (u.stop - k) := by
    rw [List.drop_append_eq_append_drop, hP,
      List.drop_eq_nil_of_le (le_of_eq_of_le hP hks), List.nil_append]
  rw [splice, splice, h1, h2, h3, h4, shift]
  simp [List.append_assoc]

theorem prefix_stable (toks : List Tok) (text : List Char) (k : Nat)
    (hk : k ≤ text.length)
    (hu : ∀ u ∈ toks, k ≤ u.start ∧ u.start ≤ u.stop) :
    annotate text toks =
      text.take k ++
        annotate (text.drop k) (toks.map (fun u => shift u k)) := by
  induction toks with
  | nil =>
    rw [annotate_nil, List.map_nil, annotate_nil, List.take_append_drop]
  | cons u us ih =>
    have hu1 := hu u (List.mem_cons_self u us)
    have ih2 := ih (fun w hw => hu w (List.mem_cons_of_mem u hw))
    have hlen : (text.take k).length = k := by
      rw [List.length_take]
      omega
    rw [annotate_cons, ih2,
      splice_shift (text.take k) _ u k hlen hu1.1 hu1.2,
      List.map_cons, annotate_cons]

theorem annotate_eq_weave (toks : List Tok) (text : List Char)
    (h : spansOk text.length toks = true) :
    annotate text toks = weave text toks := by
  match toks with
  | [] => rw [annotate_nil, weave]
  | t :: rest =>
    rw [spansOk_cons_iff] at h
    obtain ⟨h1, h2, h3, h4⟩ := h
    have hmem := spansOk_mem text.length rest h4
    have hps := prefix_stable rest text t.stop h2
      (fun u hu => ⟨h3 u hu, (hmem u hu).1⟩)
    have hlen : (text.take t.stop).length = t.stop := by
      rw [List.length_take]
      omega
    have hsp : spansOk (text.drop t.stop).length
        (rest.map (fun u => shift u t.stop)) = true := by
      rw [List.length_drop]
      exact spansOk_shift rest text.length t.stop h3 h4
    have hrec := annotate_eq_weave (rest.map (fun u => shift u t.stop))
      (text.drop t.stop) hsp
    have e1 : (text.take t.stop ++
        annotate (text.drop t.stop)
          (rest.map (fun u => shift u t.stop))).take t.start =
        text.take t.start := by
      rw [List.take_append_eq_append_take, hlen,
        Nat.sub_eq_zero_of_le h1, List.take_zero, List.append_nil,
        List.take_take]
      congr 1
      omega
    have e2 : (text.take t.stop ++
        annotate (text.drop t.stop)
          (rest.map (fun u => shift u t.stop))).take t.stop =
        text.take t.stop := by
      rw [List.take_append_eq_append_take, hlen, Nat.sub_self,
        List.take_zero, List.append_nil, List.take_take, Nat.min_self]
    have e3 : (text.take t.stop ++
        annotate (text.drop t.stop)
          (rest.map (fun u => shift u t.stop))).drop t.stop =
        annotate (text.drop t.stop) (rest.map (fun u => shift u t.stop)) := by
      rw [List.drop_append_eq_append_drop, hlen,
        List.drop_eq_nil_of_le (le_of_eq_of_le hlen (le_refl t.stop)),
        Nat.sub_self, List.drop_zero, List.nil_append]
    rw [annotate_cons, hps, splice, e1, e2, e3, hrec, weave]
termination_by toks.length
decreasing_by simp [List.length_map, Nat.lt_succ_self]

theorem noEsc_sub (l s : List Char) (hs : s ⊆ l) (h : noEsc l = true) :
    noEsc s = true := by
  rw [noEsc, List.all_eq_true] at h ⊢
  exact fun c hc => h c (hs hc)

theorem noEsc_cons (c : Char) (l : List Char) (h : noEsc (c :: l) = true) :
    ¬(c = '\x1b') ∧ noEsc l = true := by
  rw [noEsc, List.all_cons, Bool.and_eq_true] at h
  exact ⟨of_decide_eq_true h.1, h.2⟩

theorem strip_cons_ne (c : Char) (l : List Char) (hc : ¬(c = '\x1b')) :
    strip (c :: l) = c :: strip l := by
  rw [strip, if_neg hc]

theorem strip_nil : strip [] = [] := rfl

theorem strip_append_noEsc (a b : List Char) (h : noEsc a = true) :
    strip (a ++ b) = a ++ strip b := by
  induction a with
  | nil => rfl
  | cons c a ih =>
    obtain ⟨h1, h2⟩ := noEsc_cons c a h
    rw [List.cons_append, strip_cons_ne c _ h1, ih h2, List.cons_append]

theorem strip_noEsc (a : List Char) (h : noEsc a = true) : strip a = a := by
  have h2 := strip_append_noEsc a [] h
  rw [List.append_nil] at h2
  rw [h2, strip_nil, List.append_nil]

theorem stripSeq_through (code : List Char) (r : List Char)
    (hm : ∀ c ∈ code, ¬(c = 'm')) :
    stripSeq (code ++ 'm' :: r) = strip r := by
  induction code with
  | nil => rw [List.nil_append, stripSeq, if_pos rfl]
  | cons c code ih =>
    rw [List.cons_append, stripSeq,
      if_neg (hm c (List.mem_cons_self c code)),
      ih (fun d hd => hm d (List.mem_cons_of_mem c hd))]

theorem strip_esc (code r : List Char) (hm : ∀ c ∈ code, ¬(c = 'm')) :
    strip (esc code ++ r) = strip r := by
  rw [esc, List.cons_append, List.cons_append, strip, if_pos rfl,
    stripSeq, if_neg (by decide : ¬('[' = 'm')), List.append_assoc,
    List.singleton_append, stripSeq_through code r hm]

theorem strip_colored (s r : List Char) (k : TKind) (hs : noEsc s = true) :
    strip (colored s k ++ r) = s ++ strip r := by
  have hcode : ∀ c ∈ colorCode k, ¬(c = 'm') := by cases k <;> decide
  have hmain : strip ((esc (colorCode k) ++ (s ++ esc ['0'])) ++ r) =
      s ++ strip r := by
    rw [List.append_assoc, strip_esc _ _ hcode, List.append_assoc,
      strip_append_noEsc s _ hs, strip_esc _ _ (by decide)]
  rw [colored]
  cases hb : hasBold k with
  | true =>
    simp only [hb, ite_true]
    rw [List.append_assoc, strip_esc _ _ (by decide), hmain]
  | false =>
    simp only [hb, Bool.false_eq_true, ite_false, List.nil_append]
    exact hmain

theorem strip_weave (toks : List Tok) (text : List Char)
    (h : spansOk text.length toks = true) (he : noEsc text = true) :
    strip (weave text toks) = text := by
  match toks with
  | [] =>
    rw [weave]
    exact strip_noEsc text he
  | t :: rest =>
    rw [spansOk_cons_iff] at h
    obtain ⟨h1, h2, h3, h4⟩ := h
    have htake : noEsc (text.take t.start) = true :=
      noEsc_sub text _ (List.take_subset _ _) he
    have hslice : noEsc ((text.take t.stop).drop t.start) = true :=
      noEsc_sub text _
        (fun c hc => List.take_subset _ _ (List.drop_subset _ _ hc)) he
    have hdrop : noEsc (text.drop t.stop) = true :=
      noEsc_sub text _ (List.drop_subset _ _) he
    have hsp : spansOk (text.drop t.stop).length
        (rest.map (fun u => shift u t.stop)) = true := by
      rw [List.length_drop]
      exact spansOk_shift rest text.length t.stop h3 h4
    have hrec := strip_weave (rest.map (fun u => shift u t.stop))
      (text.drop t.stop) hsp hdrop
    rw [weave, strip_append_noEsc _ _ htake, strip_colored _ _ _ hslice,
      hrec, ← List.append_assoc]
    have hts : text.take t.start = (text.take t.stop).take t.start := by
      rw [List.take_take]
      congr 1
      omega
    rw [hts, List.take_append_drop, List.take_append_drop]
termination_by toks.length
decreasing_by simp [List.length_map, Nat.lt_succ_self]

/-- C3: stripping every inserted annotation marker (ANSI escape sequence)
from the output of the splicing loop reproduces the input text exactly,
for any token list with in-bounds, ordered, non-overlapping spans (as the
tokenizer produces) over a text that contains no escape character of its
own. -/
theorem c3_strip_round_trip (text : List Char) (toks : List Tok)
    (h : spansOk text.length toks = true) (he : noEsc text = true) :
    strip (annotate text toks) = text := by
  rw [annotate_eq_weave toks text h]
  exact strip_weave toks text h he

/-- Witness for C3 on the spec's own example `"key: val"` with a key span
`[0, 3)` and a value span `[5, 8)`. -/
theorem c3_strip_round_trip_witness :
    strip (annotate ['k', 'e', 'y', ':', ' ', 'v', 'a', 'l']
        [⟨0, 3, TKind.key⟩, ⟨5, 8, TKind.value⟩]) =
      ['k', 'e', 'y', ':', ' ', 'v', 'a', 'l'] :=
  c3_strip_round_trip ['k', 'e', 'y', ':', ' ', 'v', 'a', 'l']
    [⟨0, 3, TKind.key⟩, ⟨5, 8, TKind.value⟩] (by decide) (by decide)

/-- C4 counterexample: the annotator does not reorder the stored spans —
it only reverses them — so two storage orders of the same two value spans
over `"ab"` produce different outputs, refuting order independence. -/
theorem c4_counterexample :
    annotate ['a', 'b'] [⟨1, 2, TKind.value⟩, ⟨0, 1, TKind.value⟩] ≠
      annotate ['a', 'b'] [⟨0, 1, TKind.value⟩, ⟨1, 2, TKind.value⟩] := by
  decide

/-- C4 as amended: the annotator processes the spans in reverse of their
stored order rather than sorting them, so the result does depend on the
storage order; when the spans are stored ascending by offset — the order
the tokenizer yields them in — the reversal visits them by descending
start offset and the result is exactly the canonical in-place weave of
the original text. -/
theorem c4_amended_reverse_is_descending (text : List Char)
    (toks : List Tok) (h : spansOk text.length toks = true) :
    annotate text toks = weave text toks :=
  annotate_eq_weave toks text h

/-- Witness for the amended C4 on `"ab"` with two ascending value spans. -/
theorem c4_amended_reverse_is_descending_witness :
    annotate ['a', 'b'] [⟨0, 1, TKind.value⟩, ⟨1, 2, TKind.value⟩] =
      weave ['a', 'b'] [⟨0, 1, TKind.value⟩, ⟨1, 2, TKind.value⟩] :=
  c4_amended_reverse_is_descending ['a', 'b']
    [⟨0, 1, TKind.value⟩, ⟨1, 2, TKind.value⟩] (by decide)

/-- C8: annotating any text with zero tokens returns it unchanged — both
for the splicing loop on an empty token list and for `colorize` on an
empty scan stream. -/
theorem c8_zero_tokens_identity (text : List Char) :
    annotate text [] = text ∧ colorize text [] = text :=
  ⟨rfl, rfl⟩

/-- `true` for the raw tokens that update `last_token`
(`KeyToken` / `ValueToken`). -/
def isKV : RawTok → Bool
  | RawTok.keyT _ _ | RawTok.valueT _ _ => true
  | _ => false

theorem tokenizeAux_append_scalar (s e : Nat) (post : List RawTok) :
    ∀ pre : List RawTok, pre.all (fun t => !(isKV t)) = true →
      tokenizeAux TKind.value (pre ++ RawTok.scalarT s e :: post) =
        tokenizeAux TKind.value pre ++
          (⟨s, e, TKind.value⟩ : Tok) :: tokenizeAux TKind.value post := by
  intro pre
  induction pre with
  | nil => intro _; rfl
  | cons r pre ih =>
    intro h
    rw [List.all_cons, Bool.and_eq_true] at h
    match r with
    | RawTok.keyT a b => simp [isKV] at h
    | RawTok.valueT a b => simp [isKV] at h
    | RawTok.tagT a b =>
      simp only [List.cons_append, tokenizeAux, List.append_eq, ih h.2]
    | RawTok.scalarT a b =>
      simp only [List.cons_append, tokenizeAux, List.append_eq, ih h.2]
    | RawTok.otherT =>
      simp only [List.cons_append, tokenizeAux, List.append_eq, ih h.2]

/-- C9: a scalar token that appears before any key or value marker token
is classified with the initial carried token — `ValueToken(None, None)` —
so it is yielded as a value span and therefore colored with the value
color (cyan, code 36, no bold attribute). -/
theorem c9_leading_scalar_is_value (pre : List RawTok) (s e : Nat)
    (post : List RawTok) (h : pre.all (fun t => !(isKV t)) = true) :
    tokenize (pre ++ RawTok.scalarT s e :: post) =
        tokenize pre ++
          (⟨s, e, TKind.value⟩ : Tok) :: tokenizeAux TKind.value post ∧
      colorCode TKind.value = ['3', '6'] ∧ hasBold TKind.value = false :=
  ⟨tokenizeAux_append_scalar s e post pre h, rfl, rfl⟩

/-- Witness for C9: a scalar preceded only by a tag token and an ignored
token is yielded as a value span. -/
theorem c9_leading_scalar_is_value_witness :
    tokenize [RawTok.otherT, RawTok.tagT 0 2] ++
          (⟨3, 5, TKind.value⟩ : Tok) :: tokenizeAux TKind.value [] =
        tokenize ([RawTok.otherT, RawTok.tagT 0 2] ++
          RawTok.scalarT 3 5 :: []) ∧
      colorCode TKind.value = ['3', '6'] ∧ hasBold TKind.value = false := by
  have h := c9_leading_scalar_is_value [RawTok.otherT, RawTok.tagT 0 2]
    3 5 [] (by decide)
  exact ⟨h.1.symm, h.2.1, h.2.2⟩

end YamlColorize

namespace YamlTree

/-- A composed YAML node, as `yaml_tree.py` distinguishes them:
`ScalarNode` (with its tag and value strings), `SequenceNode` (list of
child nodes) and `MappingNode` (list of key/value node pairs). -/
inductive YamlNode where
  | scalarN : String → String → YamlNode
  | seqN : List YamlNode → YamlNode
  | mapN : List (YamlNode × YamlNode) → YamlNode
deriving Repr

/-- `html_element(node)` for `node = [tag, value]`: a binary-tagged scalar
becomes an embedded image, a scalar containing a line break becomes a
multiline block, every other scalar an inline span. -/
def html_element (tag value : String) : String :=
  if tag.endsWith ":binary" then
    "<img src=\"data:image/png;base64, " ++ value ++ "\" />"
  else if value.contains '\n' then
    "<div class=\"multiline\">" ++ value ++ "</div>"
  else
    "<span>" ++ value ++ "</span>"

/-- Python `sep.join(parts)`. -/
def joinSep (sep : String) : List String → String
  | [] => ""
  | [s] => s
  | s :: rest => s ++ sep ++ joinSep sep rest

/-- `isinstance(value, ScalarNode)`. -/
def isScalarN : YamlNode → Bool
  | YamlNode.scalarN _ _ => true
  | _ => false

mutual

/-- `visit(node)`: dispatch on the node class. -/
def visit : YamlNode → String
  | YamlNode.scalarN tag value => html_element tag value
  | YamlNode.seqN cs => html_list cs
  | YamlNode.mapN es => html_map es
termination_by n => 2 * sizeOf n
decreasing_by all_goals (simp_wf; try omega)

/-- `html_list(node)`: the sequence container with one `<li>`-wrapped
child per element. -/
def html_list (cs : List YamlNode) : String :=
  "<ul class=\"sequence\">\n    " ++ joinSep "\n" (listItems cs) ++
    "\n    </ul>"
termination_by 2 * sizeOf cs + 1
decreasing_by all_goals (simp_wf; try omega)

/-- The `<li>{visit(child)}</li>` fragments of `html_list`'s
comprehension. -/
def listItems : List YamlNode → List String
  | [] => []
  | c :: cs => ("<li>" ++ visit c ++ "</li>") :: listItems cs
termination_by cs => 2 * sizeOf cs
decreasing_by all_goals (simp_wf; try omega)

/-- `html_map(node)`: the mapping container with one entry fragment per
key/value pair. -/
def html_map (es : List (YamlNode × YamlNode)) : String :=
  "<ul>\n    " ++ joinSep "\n" (mapItems es) ++ "\n    </ul>"
termination_by 2 * sizeOf es + 1
decreasing_by all_goals (simp_wf; try omega)

/-- The per-entry fragments of `html_map`'s comprehension. -/
def mapItems : List (YamlNode × YamlNode) → List String
  | [] => []
  | (k, v) :: es => mapEntry k v :: mapItems es
termination_by es => 2 * sizeOf es
decreasing_by all_goals (simp_wf; try omega)

/-- One mapping entry — the conditional expression of `html_map`'s
comprehension: the key inline next to the value when
`isinstance(value, ScalarNode)`, otherwise the value inside a
`<details>`/`<summary>` disclosure element under the key. -/
def mapEntry (k v : YamlNode) : String :=
  if isScalarN v then
    "<li>\n    <span class=\"key\">" ++ visit k ++ ":</span> " ++
      visit v ++ "\n    </li>"
  else
    "<li>\n    <details>\n    <summary class=\"key\">" ++ visit k ++
      "</summary> " ++ visit v ++ "\n    </details>\n    </li>"
termination_by 2 * sizeOf k + 2 * sizeOf v + 1
decreasing_by all_goals (simp_wf; try omega)

end

theorem mapEntry_cases (k v : YamlNode) :
    mapEntry k v =
      if isScalarN v then
        "<li>\n    <span class=\"key\">" ++ visit k ++ ":</span> " ++
          visit v ++ "\n    </li>"
      else
        "<li>\n    <details>\n    <summary class=\"key\">" ++ visit k ++
          "</summary> " ++ visit v ++ "\n    </details>\n    </li>" := by
  rw [mapEntry]

theorem joinSep_cons_cons (sep s r : String) (rest : List String) :
    joinSep sep (s :: r :: rest) = s ++ sep ++ joinSep sep (r :: rest) :=
  rfl

theorem joinSep_mem_split (sep : String) (L : List String) (a : String)
    (ha : a ∈ L) : ∃ p q, joinSep sep L = p ++ (a ++ q) := by
  induction L with
  | nil => cases ha
  | cons s rest ih =>
    rcases List.mem_cons.mp ha with h1 | h2
    · subst h1
      match rest with
      | [] =>
        refine ⟨"", "", ?_⟩
        rw [String.append_empty, String.empty_append]
        rfl
      | r :: rest2 =>
        refine ⟨"", sep ++ joinSep sep (r :: rest2), ?_⟩
        rw [String.empty_append, joinSep_cons_cons, String.append_assoc]
    · obtain ⟨p, q, hpq⟩ := ih h2
      match rest, h2 with
      | r :: rest2, _ =>
        refine ⟨s ++ sep ++ p, q, ?_⟩
        rw [joinSep_cons_cons, hpq]
        simp only [String.append_assoc]

theorem mapEntry_mem_mapItems (es : List (YamlNode × YamlNode))
    (k v : YamlNode) (hmem : (k, v) ∈ es) :
    mapEntry k v ∈ mapItems es := by
  induction es with
  | nil => cases hmem
  | cons kv es ih =>
    rcases List.mem_cons.mp hmem with h1 | h2
    · rw [mapItems, ← h1]
      exact List.mem_cons_self _ _
    · rw [mapItems]
      exact List.mem_cons_of_mem _ (ih h2)

/-- C7: every entry of a mapping node appears in `html_map`'s output as
its own fragment; that fragment renders the key inline next to the value
(`<span class="key">key:</span> value`) when the value is a scalar node,
and renders the value inside a `<details>` element whose `<summary>`
holds the key otherwise. -/
theorem c7_map_entry_rendering (es : List (YamlNode × YamlNode))
    (k v : YamlNode) (hmem : (k, v) ∈ es) :
    (∃ p q, html_map es = p ++ (mapEntry k v ++ q)) ∧
      mapEntry k v =
        (if isScalarN v then
          "<li>\n    <span class=\"key\">" ++ visit k ++ ":</span> " ++
            visit v ++ "\n    </li>"
        else
          "<li>\n    <details>\n    <summary class=\"key\">" ++ visit k ++
            "</summary> " ++ visit v ++ "\n    </details>\n    </li>") := by
  refine ⟨?_, mapEntry_cases k v⟩
  obtain ⟨p, q, hpq⟩ :=
    joinSep_mem_split "\n" (mapItems es) (mapEntry k v)
      (mapEntry_mem_mapItems es k v hmem)
  refine ⟨"<ul>\n    " ++ p, q ++ "\n    </ul>", ?_⟩
  rw [html_map, hpq]
  simp only [String.append_assoc]

/-- Witness for C7 on a two-entry mapping: the scalar-valued entry is
rendered inline, and the fragment equation instantiates to the inline
form. -/
theorem c7_map_entry_rendering_witness :
    (∃ p q, html_map
        [(YamlNode.scalarN "t" "a", YamlNode.scalarN "t" "b"),
         (YamlNode.scalarN "t" "c", YamlNode.seqN [])] =
          p ++ (mapEntry (YamlNode.scalarN "t" "a")
            (YamlNode.scalarN "t" "b") ++ q)) ∧
      mapEntry (YamlNode.scalarN "t" "a") (YamlNode.scalarN "t" "b") =
        (if isScalarN (YamlNode.scalarN "t" "b") then
          "<li>\n    <span class=\"key\">" ++
            visit (YamlNode.scalarN "t" "a") ++ ":</span> " ++
            visit (YamlNode.scalarN "t" "b") ++ "\n    </li>"
        else
          "<li>\n    <details>\n    <summary class=\"key\">" ++
            visit (YamlNode.scalarN "t" "a") ++ "</summary> " ++
            visit (YamlNode.scalarN "t" "b") ++
            "\n    </details>\n    </li>") :=
  c7_map_entry_rendering
    [(YamlNode.scalarN "t" "a", YamlNode.scalarN "t" "b"),
     (YamlNode.scalarN "t" "c", YamlNode.seqN [])]
    (YamlNode.scalarN "t" "a") (YamlNode.scalarN "t" "b")
    (List.mem_cons_self _ _)

end YamlTree
